import Mathlib

/-!
# Verification of `indexable_str` (`src/src/lib.rs`)

Shallow embedding of the Rust crate `indexable_str`.  The crate wraps a
borrowed UTF-8 string slice `&str` and precomputes, for every code point,
the byte offset at which its encoding starts, so that indexing by
code-point position and slicing by code-point ranges are O(1).

Modelling choices:
* A valid UTF-8 input string is represented by its code-point sequence
  `s : List Char` (Lean `Char` is a Unicode scalar value, exactly Rust
  `char`).  The underlying byte buffer is recovered explicitly by the
  UTF-8 encoder `encodeUtf8 s : List Nat`, one `Nat` per byte.
* Rust panics become `Except SliceErr` / `Option` results.  The two
  explicit `panic!` guards of `create_str_from_range` become
  `rangeEndOutOfBounds` and `invalidRangeOrder`; a `Vec` index
  out-of-bounds panic becomes `indexOutOfBounds`; a failing byte-range
  slice `&str[a..b]` becomes `byteSliceFault`.
* `&str[a..b]` byte slicing is modelled by `byteSlice`, including Rust's
  char-boundary check (`str::is_char_boundary`).
-/

/-- Byte width of a code point, translated from the closure inside
`IndexableStr::new` (`lib.rs` lines 110-128): 1 byte for code points
`≤ 0x7F`, 2 for `≤ 0x7FF`, 3 for `≤ 0xFFFF`, 4 for `≤ 0x10FFFF`,
with the unreachable fallback `0`. -/
def utf8Width (c : Char) : Nat :=
  if c.toNat ≤ 0x7F then 1
  else if c.toNat ≤ 0x7FF then 2
  else if c.toNat ≤ 0xFFFF then 3
  else if c.toNat ≤ 0x10FFFF then 4
  else 0

/-- Total UTF-8 byte length of a code-point sequence. -/
def byteLen : List Char → Nat
  | [] => 0
  | c :: rest => utf8Width c + byteLen rest

/-- Standard UTF-8 encoding of one Unicode scalar value, as a list of
byte values.  This is the byte layout that Rust's `&str` guarantees for
its buffer; it is the independent byte-level model against which the
crate's offset table is checked. -/
def encodeChar (c : Char) : List Nat :=
  if c.toNat ≤ 0x7F then [c.toNat]
  else if c.toNat ≤ 0x7FF then
    [0xC0 + c.toNat / 0x40, 0x80 + c.toNat % 0x40]
  else if c.toNat ≤ 0xFFFF then
    [0xE0 + c.toNat / 0x1000, 0x80 + c.toNat / 0x40 % 0x40,
     0x80 + c.toNat % 0x40]
  else
    [0xF0 + c.toNat / 0x40000, 0x80 + c.toNat / 0x1000 % 0x40,
     0x80 + c.toNat / 0x40 % 0x40, 0x80 + c.toNat % 0x40]

/-- UTF-8 byte buffer of a code-point sequence: the concatenation of the
encodings of its code points. -/
def encodeUtf8 : List Char → List Nat
  | [] => []
  | c :: rest => encodeChar c ++ encodeUtf8 rest

/-- One entry of the offset table: `struct CharOffset { chr, offset }`
(`lib.rs` lines 8-12). -/
structure CharOffset where
  chr : Char
  offset : Nat
deriving DecidableEq

/-- `pub struct IndexableStr<'a>` (`lib.rs` lines 81-86): the borrowed
string (as its byte buffer), its cached byte length, the offset table and
its cached length. -/
structure IndexableStr where
  str : List Nat
  str_length : Nat
  chars_vec : List CharOffset
  chars_length : Nat
deriving DecidableEq

/-- The offset-table scan of `IndexableStr::new` (`lib.rs` lines
100-131): walk the code points in order, recording the running byte
offset `current_offset` and advancing it by `utf8Width`. -/
def buildCharsVec : List Char → Nat → List CharOffset
  | [], _ => []
  | c :: rest, current_offset =>
    ⟨c, current_offset⟩ :: buildCharsVec rest (current_offset + utf8Width c)

/-- `IndexableStr::new` (`lib.rs` lines 99-141). -/
def IndexableStr.new (s : List Char) : IndexableStr :=
  let chars_vec := buildCharsVec s 0
  { str := encodeUtf8 s
    str_length := (encodeUtf8 s).length
    chars_vec := chars_vec
    chars_length := chars_vec.length }

/-- `as_str` (`lib.rs` lines 153-155): returns the original string. -/
def IndexableStr.as_str (t : IndexableStr) : List Nat :=
  t.str

/-- `len` (`lib.rs` lines 167-169): number of `char`s in the string. -/
def IndexableStr.len (t : IndexableStr) : Nat :=
  t.chars_length

/-- The `Display` implementation (`lib.rs` lines 190-194) writes the
underlying string through unchanged. -/
def IndexableStr.to_display_string (t : IndexableStr) : List Nat :=
  t.str

/-- `Index<usize>` (`lib.rs` lines 196-202): `&self.chars_vec[index].chr`.
The `Vec` bounds panic is modelled by `none`. -/
def IndexableStr.charAt (t : IndexableStr) (index : Nat) : Option Char :=
  (t.chars_vec[index]?).map CharOffset.chr

/-- The distinguishable failure conditions of the slicing paths. -/
inductive SliceErr where
  | rangeEndOutOfBounds
  | invalidRangeOrder
  | indexOutOfBounds
  | byteSliceFault
deriving DecidableEq

/-- Rust's continuation-byte test: a byte in `0x80..0xBF`. -/
def isContinuation (b : Nat) : Bool :=
  decide (0x80 ≤ b) && decide (b < 0xC0)

/-- `str::is_char_boundary`: position 0 is a boundary; a position past
the end is not; the end itself is; otherwise the byte there must not be
a continuation byte. -/
def isCharBoundary (bytes : List Nat) (i : Nat) : Bool :=
  if i = 0 then true
  else
    match bytes[i]? with
    | none => i == bytes.length
    | some b => !(isContinuation b)

/-- Byte-range slicing `&str[a..b]` on the byte buffer: succeeds exactly
when `a ≤ b ≤ len` and both ends are char boundaries, returning the bytes
in `[a, b)`; otherwise Rust panics, modelled by `none`. -/
def byteSlice (bytes : List Nat) (a b : Nat) : Option (List Nat) :=
  if a ≤ b ∧ b ≤ bytes.length ∧ isCharBoundary bytes a = true ∧
      isCharBoundary bytes b = true then
    some ((bytes.drop a).take (b - a))
  else none

/-- `create_str_from_range` (`lib.rs` lines 171-187), panics turned into
errors: first guard `end_index > chars_length`, second guard
`end_index < start_index`, then the unguarded `chars_vec[start_index]`
lookup, the `bytes_end` resolution (`str_length` when
`chars_length == end_index`, else `chars_vec[end_index].offset`), and
finally the byte-range slice of `str`. -/
def IndexableStr.create_str_from_range (t : IndexableStr)
    (start_index end_index : Nat) : Except SliceErr (List Nat) :=
  if end_index > t.chars_length then
    .error .rangeEndOutOfBounds
  else if end_index < start_index then
    .error .invalidRangeOrder
  else
    match t.chars_vec[start_index]? with
    | none => .error .indexOutOfBounds
    | some co =>
      let bytes_start := co.offset
      let bytes_end? : Except SliceErr Nat :=
        if t.chars_length = end_index then .ok t.str_length
        else
          match t.chars_vec[end_index]? with
          | none => .error .indexOutOfBounds
          | some co2 => .ok co2.offset
      match bytes_end? with
      | .error e => .error e
      | .ok bytes_end =>
        match byteSlice t.str bytes_start bytes_end with
        | none => .error .byteSliceFault
        | some r => .ok r

/-- `Index<Range<usize>>` (`lib.rs` lines 207-213): `s[start..end]`. -/
def IndexableStr.sliceRange (t : IndexableStr) (start_index end_index : Nat) :
    Except SliceErr (List Nat) :=
  t.create_str_from_range start_index end_index

/-- `Index<RangeFrom<usize>>` (`lib.rs` lines 219-225): `s[start..]`. -/
def IndexableStr.slice_from (t : IndexableStr) (start_index : Nat) :
    Except SliceErr (List Nat) :=
  t.create_str_from_range start_index t.chars_length

/-- `Index<RangeTo<usize>>` (`lib.rs` lines 231-237): `s[..end]`. -/
def IndexableStr.slice_to (t : IndexableStr) (end_index : Nat) :
    Except SliceErr (List Nat) :=
  t.create_str_from_range 0 end_index

/-- Byte offset getter on the table built for `s`, defaulting to 0 out of
range; used to state the table invariants. -/
def offAt (s : List Char) (i : Nat) : Nat :=
  (((IndexableStr.new s).chars_vec).map CharOffset.offset).getD i 0

section Lemmas

lemma buildCharsVec_length (s : List Char) (off : Nat) :
    (buildCharsVec s off).length = s.length := by
  induction s generalizing off with
  | nil => rfl
  | cons c rest ih => simp [buildCharsVec, ih]

lemma buildCharsVec_getElem (s : List Char) (off i : Nat) :
    (buildCharsVec s off)[i]? =
      (s[i]?).map (fun c => ⟨c, off + byteLen (s.take i)⟩) := by
  induction s generalizing off i with
  | nil => simp [buildCharsVec]
  | cons c rest ih =>
    cases i with
    | zero => simp [buildCharsVec, byteLen]
    | succ j =>
      simp only [buildCharsVec, List.getElem?_cons_succ, ih, List.take_succ_cons,
        byteLen]
      cases rest[j]? <;> simp [Nat.add_assoc]

lemma new_chars_length (s : List Char) :
    (IndexableStr.new s).chars_length = s.length := by
  simp [IndexableStr.new, buildCharsVec_length]

lemma new_chars_vec_getElem (s : List Char) (i : Nat) :
    (IndexableStr.new s).chars_vec[i]? =
      (s[i]?).map (fun c => ⟨c, byteLen (s.take i)⟩) := by
  have h := buildCharsVec_getElem s 0 i
  simpa [IndexableStr.new] using h

lemma char_toNat_lt (c : Char) : c.toNat < 0x110000 := by
  rcases c.valid with h | h
  · exact Nat.lt_trans h (by norm_num)
  · exact h.2

lemma encodeChar_length (c : Char) : (encodeChar c).length = utf8Width c := by
  have h := char_toNat_lt c
  unfold encodeChar utf8Width
  split_ifs with h1 h2 h3 h4
  · rfl
  · rfl
  · rfl
  · rfl
  · exact absurd (by omega : c.toNat ≤ 0x10FFFF) h4

lemma utf8Width_pos (c : Char) : 1 ≤ utf8Width c := by
  have h := char_toNat_lt c
  unfold utf8Width
  split <;> try omega
  split <;> try omega
  split <;> try omega
  split <;> omega

lemma byteLen_append (a b : List Char) :
    byteLen (a ++ b) = byteLen a + byteLen b := by
  induction a with
  | nil => simp [byteLen]
  | cons c rest ih => simp [byteLen, ih, Nat.add_assoc]

lemma encodeUtf8_length (s : List Char) :
    (encodeUtf8 s).length = byteLen s := by
  induction s with
  | nil => rfl
  | cons c rest ih => simp [encodeUtf8, byteLen, encodeChar_length, ih]

lemma encodeUtf8_drop (s : List Char) (i : Nat) :
    (encodeUtf8 s).drop (byteLen (s.take i)) = encodeUtf8 (s.drop i) := by
  induction s generalizing i with
  | nil => simp [byteLen]
  | cons c rest ih =>
    cases i with
    | zero => simp [byteLen]
    | succ j =>
      have hlen : (encodeChar c).length = utf8Width c := encodeChar_length c
      simp only [List.take_succ_cons, byteLen, encodeUtf8, List.drop_succ_cons]
      rw [← hlen, List.drop_append, ih]

lemma encodeUtf8_take (s : List Char) (i : Nat) :
    (encodeUtf8 s).take (byteLen (s.take i)) = encodeUtf8 (s.take i) := by
  induction s generalizing i with
  | nil => simp [byteLen, encodeUtf8]
  | cons c rest ih =>
    cases i with
    | zero => simp [byteLen, encodeUtf8]
    | succ j =>
      have hlen : (encodeChar c).length = utf8Width c := encodeChar_length c
      simp only [List.take_succ_cons, byteLen, encodeUtf8]
      rw [← hlen, List.take_append, ih]

lemma byteLen_take_add_drop (s : List Char) (i : Nat) :
    byteLen (s.take i) + byteLen (s.drop i) = byteLen s := by
  rw [← byteLen_append, List.take_append_drop]

lemma byteLen_take_le (s : List Char) (i : Nat) :
    byteLen (s.take i) ≤ byteLen s := by
  have h := byteLen_take_add_drop s i
  omega

lemma byteLen_take_mono (s : List Char) {i j : Nat} (h : i ≤ j) :
    byteLen (s.take i) ≤ byteLen (s.take j) := by
  have h1 : (s.take j).take i = s.take i := by
    rw [List.take_take, Nat.min_eq_left h]
  calc byteLen (s.take i) = byteLen ((s.take j).take i) := by rw [h1]
    _ ≤ byteLen (s.take j) := byteLen_take_le _ i

lemma byteLen_pos {l : List Char} (h : l ≠ []) : 1 ≤ byteLen l := by
  cases l with
  | nil => simp at h
  | cons c rest =>
    have := utf8Width_pos c
    simp only [byteLen]
    omega

lemma byteLen_take_lt (s : List Char) {i : Nat} (h : i < s.length) :
    byteLen (s.take i) < byteLen s := by
  have hd : s.drop i ≠ [] := by
    intro hnil
    have := List.drop_eq_nil_iff.mp hnil
    omega
  have := byteLen_pos hd
  have := byteLen_take_add_drop s i
  omega

lemma byteLen_take_strict (s : List Char) {i j : Nat} (hij : i < j)
    (hi : i < s.length) : byteLen (s.take i) < byteLen (s.take j) := by
  have h1 : (s.take j).take i = s.take i := by
    rw [List.take_take, Nat.min_eq_left (Nat.le_of_lt hij)]
  have h2 : i < (s.take j).length := by
    simp only [List.length_take]
    omega
  have := byteLen_take_lt (s.take j) h2
  rw [h1] at this
  exact this


lemma encodeChar_head (c : Char) :
    ∃ b t, encodeChar c = b :: t ∧ isContinuation b = false := by
  have h := char_toNat_lt c
  unfold encodeChar
  split_ifs with h1 h2 h3
  · exact ⟨_, _, rfl, by simp only [isContinuation, Bool.and_eq_false_iff,
      decide_eq_false_iff_not]; omega⟩
  · exact ⟨_, _, rfl, by simp only [isContinuation, Bool.and_eq_false_iff,
      decide_eq_false_iff_not]; omega⟩
  · exact ⟨_, _, rfl, by simp only [isContinuation, Bool.and_eq_false_iff,
      decide_eq_false_iff_not]; omega⟩
  · exact ⟨_, _, rfl, by simp only [isContinuation, Bool.and_eq_false_iff,
      decide_eq_false_iff_not]; omega⟩

lemma charBoundary_encode (s : List Char) (i : Nat) :
    isCharBoundary (encodeUtf8 s) (byteLen (s.take i)) = true := by
  by_cases hp : byteLen (s.take i) = 0
  · simp [isCharBoundary, hp]
  · unfold isCharBoundary
    rw [if_neg hp]
    by_cases hi : i < s.length
    · have hdrop : (encodeUtf8 s).drop (byteLen (s.take i)) =
          encodeUtf8 (s.drop i) := encodeUtf8_drop s i
      have hcons : s.drop i = s[i] :: s.drop (i + 1) :=
        List.drop_eq_getElem_cons hi
      obtain ⟨b, tl, hb, hcont⟩ := encodeChar_head (s[i])
      have hget : (encodeUtf8 s)[byteLen (s.take i)]? = some b := by
        have h0 := List.getElem?_drop (encodeUtf8 s) (byteLen (s.take i)) 0
        rw [hdrop, hcons] at h0
        simp only [encodeUtf8, hb] at h0
        simpa using h0.symm
      rw [hget]
      simp [hcont]
    · have htake : s.take i = s := List.take_of_length_le (by omega)
      have hlen : byteLen (s.take i) = (encodeUtf8 s).length := by
        rw [htake, encodeUtf8_length]
      have hnone : (encodeUtf8 s)[byteLen (s.take i)]? = none := by
        apply List.getElem?_eq_none
        omega
      rw [hnone, hlen]
      simp

lemma byteSlice_encode (s : List Char) (start_index end_index : Nat)
    (h1 : start_index ≤ end_index) (_h2 : end_index ≤ s.length) :
    byteSlice (encodeUtf8 s) (byteLen (s.take start_index))
        (byteLen (s.take end_index)) =
      some (encodeUtf8 ((s.drop start_index).take (end_index - start_index))) := by
  have hsplit : s.take end_index =
      s.take start_index ++ (s.drop start_index).take (end_index - start_index) := by
    calc s.take end_index
        = s.take (start_index + (end_index - start_index)) := by
          rw [Nat.add_sub_cancel' h1]
      _ = s.take start_index ++ (s.drop start_index).take (end_index - start_index) :=
          List.take_add s start_index (end_index - start_index)
  have harith : byteLen (s.take end_index) =
      byteLen (s.take start_index) +
        byteLen ((s.drop start_index).take (end_index - start_index)) := by
    rw [hsplit, byteLen_append]
  unfold byteSlice
  rw [if_pos ⟨byteLen_take_mono s h1,
      by rw [encodeUtf8_length]; exact byteLen_take_le s end_index,
      charBoundary_encode s start_index, charBoundary_encode s end_index⟩]
  rw [encodeUtf8_drop s start_index, harith, Nat.add_sub_cancel_left]
  rw [encodeUtf8_take (s.drop start_index) (end_index - start_index)]

lemma new_str (s : List Char) : (IndexableStr.new s).str = encodeUtf8 s := rfl

lemma new_str_length (s : List Char) :
    (IndexableStr.new s).str_length = (encodeUtf8 s).length := rfl

lemma create_err_end (s : List Char) (start_index end_index : Nat)
    (h : s.length < end_index) :
    (IndexableStr.new s).create_str_from_range start_index end_index =
      .error .rangeEndOutOfBounds := by
  unfold IndexableStr.create_str_from_range
  rw [new_chars_length, if_pos (by omega)]

lemma create_err_order (s : List Char) (start_index end_index : Nat)
    (h1 : end_index ≤ s.length) (h2 : end_index < start_index) :
    (IndexableStr.new s).create_str_from_range start_index end_index =
      .error .invalidRangeOrder := by
  unfold IndexableStr.create_str_from_range
  rw [new_chars_length, if_neg (by omega), if_pos h2]

lemma create_err_oob (s : List Char) (start_index end_index : Nat)
    (h1 : end_index ≤ s.length) (h2 : start_index ≤ end_index)
    (h3 : s.length ≤ start_index) :
    (IndexableStr.new s).create_str_from_range start_index end_index =
      .error .indexOutOfBounds := by
  unfold IndexableStr.create_str_from_range
  rw [new_chars_length, if_neg (by omega), if_neg (by omega)]
  have hnone : (IndexableStr.new s).chars_vec[start_index]? = none := by
    rw [new_chars_vec_getElem, List.getElem?_eq_none h3]
    rfl
  rw [hnone]

lemma create_ok (s : List Char) (start_index end_index : Nat)
    (hs : start_index < s.length) (h1 : start_index ≤ end_index)
    (h2 : end_index ≤ s.length) :
    (IndexableStr.new s).create_str_from_range start_index end_index =
      .ok (encodeUtf8 ((s.drop start_index).take (end_index - start_index))) := by
  unfold IndexableStr.create_str_from_range
  rw [new_chars_length, if_neg (by omega), if_neg (by omega)]
  have hsome : (IndexableStr.new s).chars_vec[start_index]? =
      some ⟨s[start_index], byteLen (s.take start_index)⟩ := by
    rw [new_chars_vec_getElem, List.getElem?_eq_getElem hs]
    rfl
  rw [hsome]
  have hend : byteLen (s.take end_index) = byteLen (s.take end_index) := rfl
  by_cases hE : s.length = end_index
  · rw [if_pos hE]
    have hstr : (IndexableStr.new s).str_length = byteLen (s.take end_index) := by
      rw [new_str_length, encodeUtf8_length, ← hE, List.take_length]
    simp only [hstr, new_str]
    rw [byteSlice_encode s start_index end_index h1 h2]
  · rw [if_neg hE]
    have hlt : end_index < s.length := by omega
    have hsome2 : (IndexableStr.new s).chars_vec[end_index]? =
        some ⟨s[end_index], byteLen (s.take end_index)⟩ := by
      rw [new_chars_vec_getElem, List.getElem?_eq_getElem hlt]
      rfl
    rw [hsome2]
    simp only [new_str]
    rw [byteSlice_encode s start_index end_index h1 h2]


end Lemmas


section ClaimTheorems

/-- C1: the claim quantifies over all `start ≤ end ≤ length()`, but at
`start = end = length()` (here `s = "ab"`, `s[2..2]`) the code reaches the
unguarded `self.chars_vec[start_index]` lookup before any emptiness check
and aborts with a `Vec` index-out-of-bounds panic instead of returning the
empty sub-slice prescribed by the specification's byte-offset resolution
rule. -/
theorem slice_fails_at_start_eq_count :
    (IndexableStr.new ['a', 'b']).len = 2 ∧
    (IndexableStr.new ['a', 'b']).sliceRange 2 2 = .error .indexOutOfBounds :=
  ⟨rfl, rfl⟩

/-- C2: the claim says `slice(k, k)` returns an empty slice for every
`0 ≤ k ≤ length()`, in particular `slice(0, 0) = ""` on the empty input.
It does hold for `k < length()` (middle conjunct), but at `k = length()` —
and hence already at `slice(0, 0)` on `""` — the unguarded
`chars_vec[start_index]` lookup aborts with an index-out-of-bounds panic. -/
theorem empty_and_diagonal_slice_eval :
    (IndexableStr.new ([] : List Char)).len = 0 ∧
    (IndexableStr.new ['a', 'b']).sliceRange 1 1 = .ok [] ∧
    (IndexableStr.new ([] : List Char)).sliceRange 0 0 =
      .error .indexOutOfBounds :=
  ⟨rfl, rfl, rfl⟩

/-- C3: `slice(start, end)` fails with `RangeEndOutOfBounds` exactly when
`end > char_count`, and — whenever `end ≤ char_count` — fails with
`InvalidRangeOrder` exactly when `end < start`; the bound check precedes
the order check, so a range violating both reports `RangeEndOutOfBounds`. -/
theorem slice_error_conditions (s : List Char) (start_index end_index : Nat) :
    ((IndexableStr.new s).sliceRange start_index end_index =
        .error .rangeEndOutOfBounds ↔
      end_index > (IndexableStr.new s).chars_length) ∧
    (end_index ≤ (IndexableStr.new s).chars_length →
      ((IndexableStr.new s).sliceRange start_index end_index =
          .error .invalidRangeOrder ↔
        end_index < start_index)) := by
  simp only [IndexableStr.sliceRange, new_chars_length]
  by_cases hE : s.length < end_index
  · rw [create_err_end s start_index end_index hE]
    exact ⟨iff_of_true rfl hE, fun hle => absurd hE (by omega)⟩
  · by_cases hO : end_index < start_index
    · rw [create_err_order s start_index end_index (by omega) hO]
      refine ⟨⟨fun h => ?_, fun h => absurd h hE⟩, fun _ => iff_of_true rfl hO⟩
      simp at h
    · by_cases hS : s.length ≤ start_index
      · rw [create_err_oob s start_index end_index (by omega) (by omega) hS]
        refine ⟨⟨fun h => ?_, fun h => absurd h hE⟩,
          fun _ => ⟨fun h => ?_, fun h => absurd h hO⟩⟩
        · simp at h
        · simp at h
      · rw [create_ok s start_index end_index (by omega) (by omega) (by omega)]
        refine ⟨⟨fun h => ?_, fun h => absurd h hE⟩,
          fun _ => ⟨fun h => ?_, fun h => absurd h hO⟩⟩
        · simp at h
        · simp at h

/-- Witness for C3 at `s = "a"`, `start = 2`, `end = 1`: both
characterizations instantiated concretely. -/
theorem slice_error_conditions_witness :
    ((IndexableStr.new ['a']).sliceRange 2 1 = .error .rangeEndOutOfBounds ↔
      1 > (IndexableStr.new ['a']).chars_length) ∧
    ((IndexableStr.new ['a']).sliceRange 2 1 = .error .invalidRangeOrder ↔
      1 < 2) :=
  ⟨(slice_error_conditions ['a'] 2 1).1,
   (slice_error_conditions ['a'] 2 1).2 (by decide)⟩

/-- C4: `character_at(i)` agrees with the independent code-point
enumeration of the input at every position: it returns `s[i]` for
`i < length()` and fails (`none`, the Rust index panic) for every
`i ≥ length()`, including `i = 0` on the empty text. -/
theorem charAt_agrees (s : List Char) (i : Nat) :
    (IndexableStr.new s).charAt i = s[i]? ∧
    (s.length ≤ i → (IndexableStr.new s).charAt i = none) := by
  have h : (IndexableStr.new s).charAt i = s[i]? := by
    unfold IndexableStr.charAt
    rw [new_chars_vec_getElem]
    cases s[i]? <;> simp
  exact ⟨h, fun hle => by rw [h, List.getElem?_eq_none hle]⟩

/-- Witness for C4 on the empty text at index 0. -/
theorem charAt_agrees_witness :
    (IndexableStr.new ([] : List Char)).charAt 0 = ([] : List Char)[0]? ∧
    (IndexableStr.new ([] : List Char)).charAt 0 = none :=
  ⟨(charAt_agrees [] 0).1, (charAt_agrees [] 0).2 (by decide)⟩

/-- C5: the split/rejoin identity quantifies over all `0 ≤ k ≤ length()`,
but at `k = length()` (here `s = "a"`, `k = 1`) the second half
`slice(k, length())` aborts with the unguarded `chars_vec[k]` index
panic, so the concatenation cannot be formed; only `k < length()` works
(`slice(0, 1)` alone already returns the whole text here). -/
theorem split_rejoin_breaks_at_count :
    (IndexableStr.new ['a']).len = 1 ∧
    (IndexableStr.new ['a']).sliceRange 0 1 = .ok (encodeUtf8 ['a']) ∧
    (IndexableStr.new ['a']).sliceRange 1 1 = .error .indexOutOfBounds :=
  ⟨rfl, rfl, rfl⟩

/-- C6: the claim includes `slice_from(0) = as_text()`; on the empty
input `as_text()` is the empty string but `slice_from(0)` reaches the
unguarded `chars_vec[0]` lookup on an empty table and aborts with an
index-out-of-bounds panic instead. -/
theorem slice_from_zero_fails_on_empty :
    (IndexableStr.new ([] : List Char)).as_str = ([] : List Nat) ∧
    (IndexableStr.new ([] : List Char)).slice_from 0 =
      .error .indexOutOfBounds :=
  ⟨rfl, rfl⟩

/-- C7: the claim includes `slice_to(length()) = as_text()`; on the empty
input `length() = 0` and `as_text()` is the empty string, but
`slice_to(0)` reaches the unguarded `chars_vec[0]` lookup on an empty
table and aborts with an index-out-of-bounds panic instead. -/
theorem slice_to_len_fails_on_empty :
    (IndexableStr.new ([] : List Char)).len = 0 ∧
    (IndexableStr.new ([] : List Char)).as_str = ([] : List Nat) ∧
    (IndexableStr.new ([] : List Char)).slice_to 0 =
      .error .indexOutOfBounds :=
  ⟨rfl, rfl, rfl⟩

lemma offAt_eq (s : List Char) {i : Nat} (hi : i < s.length) :
    offAt s i = byteLen (s.take i) := by
  unfold offAt
  rw [List.getD_eq_getElem?_getD, List.getElem?_map, new_chars_vec_getElem,
    List.getElem?_eq_getElem hi]
  rfl

/-- C8: invariants of the offset table built by `new`: byte offsets are
strictly ascending; every stored offset is strictly below the source byte
length; and entry `i`'s offset is the byte position at which code point
`i` begins, i.e. the sum of the standard UTF-8 widths of the preceding
code points. -/
theorem char_table_invariants (s : List Char) :
    (∀ i j, i < j → j < (IndexableStr.new s).chars_length →
      offAt s i < offAt s j) ∧
    (∀ i, i < (IndexableStr.new s).chars_length →
      offAt s i < (IndexableStr.new s).str_length) ∧
    (∀ i, i < (IndexableStr.new s).chars_length →
      offAt s i = byteLen (s.take i)) := by
  have hlen := new_chars_length s
  refine ⟨fun i j hij hj => ?_, fun i hi => ?_, fun i hi => ?_⟩
  · rw [hlen] at hj
    have hi : i < s.length := by omega
    rw [offAt_eq s hi, offAt_eq s hj]
    exact byteLen_take_strict s hij hi
  · rw [hlen] at hi
    rw [offAt_eq s hi, new_str_length, encodeUtf8_length]
    exact byteLen_take_lt s hi
  · rw [hlen] at hi
    exact offAt_eq s hi

/-- Witness for C8 at `s = "ab"`. -/
theorem char_table_invariants_witness :
    offAt ['a', 'b'] 0 < offAt ['a', 'b'] 1 ∧
    offAt ['a', 'b'] 0 < (IndexableStr.new ['a', 'b']).str_length ∧
    offAt ['a', 'b'] 1 = byteLen (['a', 'b'].take 1) :=
  ⟨(char_table_invariants ['a', 'b']).1 0 1 (by decide) (by decide),
   (char_table_invariants ['a', 'b']).2.1 0 (by decide),
   (char_table_invariants ['a', 'b']).2.2 1 (by decide)⟩

/-- C9: the structure is a pass-through view: `as_str` and the `Display`
rendering return the source buffer unchanged, and `len` counts code
points, not bytes — concretely, a 4-byte emoji followed by nine ASCII
digits has `len = 10` while its byte buffer has length 13. -/
theorem pass_through_view (s : List Char) :
    (IndexableStr.new s).as_str = encodeUtf8 s ∧
    (IndexableStr.new s).to_display_string = encodeUtf8 s ∧
    (IndexableStr.new s).len = s.length ∧
    (IndexableStr.new (Char.ofNat 0x1F600 ::
      ['0', '1', '2', '3', '4', '5', '6', '7', '8'])).len = 10 ∧
    (encodeUtf8 (Char.ofNat 0x1F600 ::
      ['0', '1', '2', '3', '4', '5', '6', '7', '8'])).length = 13 :=
  ⟨rfl, rfl, new_chars_length s, by decide, by decide⟩

/-- C10: whenever `start < char_count` and `start ≤ end ≤ char_count`,
`create_str_from_range` completes with no failure at all: the resolved
byte positions are ordered and bounded by `str_length`, both lie on UTF-8
code-point boundaries of the source buffer, and the byte-range slice
succeeds, returning the encoding of the requested code-point
sub-sequence. -/
theorem create_str_in_range_succeeds (s : List Char) (start_index end_index : Nat)
    (hs : start_index < (IndexableStr.new s).chars_length)
    (h1 : start_index ≤ end_index)
    (h2 : end_index ≤ (IndexableStr.new s).chars_length) :
    byteLen (s.take start_index) ≤ byteLen (s.take end_index) ∧
    byteLen (s.take end_index) ≤ (IndexableStr.new s).str_length ∧
    isCharBoundary (IndexableStr.new s).str (byteLen (s.take start_index)) = true ∧
    isCharBoundary (IndexableStr.new s).str (byteLen (s.take end_index)) = true ∧
    (IndexableStr.new s).create_str_from_range start_index end_index =
      .ok (encodeUtf8 ((s.drop start_index).take (end_index - start_index))) := by
  rw [new_chars_length] at hs h2
  refine ⟨byteLen_take_mono s h1, ?_, ?_, ?_, create_ok s start_index end_index hs h1 h2⟩
  · rw [new_str_length, encodeUtf8_length]
    exact byteLen_take_le s end_index
  · rw [new_str]
    exact charBoundary_encode s start_index
  · rw [new_str]
    exact charBoundary_encode s end_index

/-- Witness for C10 at `s = "ab"`, `start = 0`, `end = 2`. -/
theorem create_str_in_range_succeeds_witness :
    byteLen (['a', 'b'].take 0) ≤ byteLen (['a', 'b'].take 2) ∧
    byteLen (['a', 'b'].take 2) ≤ (IndexableStr.new ['a', 'b']).str_length ∧
    isCharBoundary (IndexableStr.new ['a', 'b']).str
      (byteLen (['a', 'b'].take 0)) = true ∧
    isCharBoundary (IndexableStr.new ['a', 'b']).str
      (byteLen (['a', 'b'].take 2)) = true ∧
    (IndexableStr.new ['a', 'b']).create_str_from_range 0 2 =
      .ok (encodeUtf8 ((['a', 'b'].drop 0).take (2 - 0))) :=
  create_str_in_range_succeeds ['a', 'b'] 0 2 (by decide) (by decide) (by decide)

end ClaimTheorems
